import Mathlib

/-!
Verification of the LoanRepaymentPredictor core: a decision-tree /
random-forest classifier.  The C++ sources are shallowly embedded below:
doubles become rationals, vectors become lists, unchecked vector indexing
that can go out of bounds becomes Option-valued access, and the
std::map-based tallies become sorted association structures with the same
ascending iteration order.
-/

/-- The feature matrix: one row of rational feature values per data row
(src/src/CoreLogic/DecisionTree.h, vector of vector of double). -/
abbrev Features := List (List ℚ)

/-- Reading features[i][feature_index] where feature_index has C++ type int
(as in partition_data).  A negative index or an out-of-range access is
undefined behaviour in the source; the model returns none there. -/
def getFeatureAt (f : Features) (i : ℕ) (fi : Int) : Option ℚ :=
  if 0 ≤ fi then f[i]?.bind (fun row => row[fi.toNat]?) else none

/-- std::swap(features[a], features[b]) on the row list. -/
def listSwap (f : Features) (a b : ℕ) : Features :=
  (f.set a (f.getD b [])).set b (f.getD a [])

/-- The loop body of DecisionTree::partition_data (DecisionTree.h lines
182-188): for i in [start, start+n) move every row whose value at the
feature column is below the threshold to the front, tracking mid.  The
first argument after the threshold is the remaining iteration count, so
the function is structurally recursive and fully executable. -/
def partitionAux (fi : Int) (t : ℚ) : ℕ → Features → ℕ → ℕ → Option (Features × ℕ)
  | 0, f, _, mid => some (f, mid)
  | n + 1, f, i, mid =>
    match getFeatureAt f i fi with
    | none => none
    | some v =>
      if v < t then partitionAux fi t n (listSwap f mid i) (i + 1) (mid + 1)
      else partitionAux fi t n f (i + 1) mid

/-- DecisionTree::partition_data (DecisionTree.h lines 181-193): run the
swap loop over [start, fin), then apply the degenerate-split guard that
forces mid to the midpoint whenever the loop produced mid = start or
mid = fin. -/
def partition_data (f : Features) (start fin : ℕ) (fi : Int) (t : ℚ) :
    Option (Features × ℕ) :=
  (partitionAux fi t (fin - start) f start start).map fun p =>
    (p.1, if p.2 = start ∨ p.2 = fin then start + (fin - start) / 2 else p.2)

/-- The labels of rows start..fin-1, read with the unchecked indexing of the
source (out-of-range reads modelled by the default 0). -/
def sliceIdx (labels : List Int) (start fin : ℕ) : List Int :=
  (List.range' start (fin - start)).map (fun i => labels.getD i 0)

/-- DecisionTree::calculate_gini_index (DecisionTree.h lines 195-209):
weighted average of the Gini impurities of the two label groups.  The C++
iterates the count maps; entries with count 0 contribute 0 to the sum, so
summing over the distinct labels of each group yields the same value. -/
def calculate_gini_index (leftLabels rightLabels : List Int) : ℚ :=
  let leftGini : ℚ :=
    1 - ((leftLabels.dedup).map
      (fun l => ((leftLabels.count l : ℚ) / (leftLabels.length : ℚ)) ^ 2)).sum
  let rightGini : ℚ :=
    1 - ((rightLabels.dedup).map
      (fun l => ((rightLabels.count l : ℚ) / (rightLabels.length : ℚ)) ^ 2)).sum
  (leftGini * leftLabels.length + rightGini * rightLabels.length) /
    (leftLabels.length + rightLabels.length)

/-- Result record of find_best_split.  gini = none models the
numeric_limits double max sentinel meaning that no usable split exists. -/
structure SplitResult where
  gini : Option ℚ
  threshold : ℚ
deriving DecidableEq

/-- The comparison gini < best_gini on doubles where none stands for the
DBL_MAX sentinel: every really computed impurity (always at most 1) is
below the sentinel, and the sentinel is below nothing. -/
def giniLt : Option ℚ → Option ℚ → Bool
  | some a, some b => decide (a < b)
  | some _, none => true
  | none, _ => false

/-- DecisionTree::find_best_split (DecisionTree.h lines 152-179): sweep i
over [start, fin-1); whenever the feature value changes between rows i and
i+1, evaluate the weighted Gini of splitting after row i at the midpoint
threshold and keep the strict minimum.  The initial accumulator carries the
DBL_MAX sentinel and threshold 0, as in the source. -/
def find_best_split (f : Features) (labels : List Int) (start fin : ℕ)
    (featureIndex : ℕ) : SplitResult :=
  (List.range' start (fin - 1 - start)).foldl
    (fun acc i =>
      let vi := (f.getD i []).getD featureIndex 0
      let vj := (f.getD (i + 1) []).getD featureIndex 0
      if vi ≠ vj then
        let g := calculate_gini_index (sliceIdx labels start (i + 1))
          (sliceIdx labels (i + 1) fin)
        if giniLt (some g) acc.gini then ⟨some g, (vi + vj) / 2⟩ else acc
      else acc)
    ⟨none, 0⟩

/-- The split-search loop of build_tree (DecisionTree.h lines 93-104).
best_feature starts at -1; best_threshold is an uninitialized double,
modelled as none until it is first assigned; best_gini starts at the
DBL_MAX sentinel.  The candidate features are iterated in list order
(the C++ unordered_set iterates in some unspecified order). -/
def bestSplitSearch (f : Features) (labels : List Int) (start fin : ℕ)
    (sf : List Int) : Int × Option ℚ × Option ℚ :=
  sf.foldl
    (fun acc fi =>
      let r := find_best_split f labels start fin fi.toNat
      if giniLt r.gini acc.2.2 then (fi, some r.threshold, r.gini) else acc)
    (-1, none, none)

/-- DecisionTree::should_be_leaf (DecisionTree.h lines 119-128): true when
every label in [start+1, fin) equals the label at start. -/
def should_be_leaf (labels : List Int) (start fin : ℕ) : Bool :=
  (List.range' (start + 1) (fin - (start + 1))).all
    (fun i => labels.getD i 0 == labels.getD start 0)

/-- Insertion of a key into the sorted distinct key list of a std::map. -/
def insert_key (x : Int) : List Int → List Int
  | [] => [x]
  | y :: ys => if x < y then x :: y :: ys else if x = y then y :: ys else y :: insert_key x ys

/-- The sorted distinct keys of the std::map obtained by counting the
elements of ps. -/
def sorted_keys (ps : List Int) : List Int := ps.foldr insert_key []

/-- The selection loop shared by DecisionTree::determine_label and the
map-based RandomForest::predict: traverse the keys in ascending order and
keep the first key whose count strictly exceeds the running maximum,
starting from majority = -1 with count 0. -/
def best_vote (c : Int → ℕ) : List Int → Int × ℕ → Int × ℕ
  | [], acc => acc
  | k :: ks, acc => best_vote c ks (if acc.2 < c k then (k, c k) else acc)

/-- Majority label of a list by the std::map tally of the source: counts
per label, ascending key order, strict greater-than updates. -/
def map_majority (ps : List Int) : Int :=
  (best_vote (fun l => ps.count l) (sorted_keys ps) (-1, 0)).1

/-- DecisionTree::determine_label (DecisionTree.h lines 130-145): majority
vote over the labels of rows start..fin-1. -/
def determine_label (labels : List Int) (start fin : ℕ) : Int :=
  map_majority (sliceIdx labels start fin)

/-- Modelled from the spec: Node.h is not under src.  Spec section 3
describes Node as a tagged variant, either a leaf carrying a predicted
label (a default-constructed node is a leaf whose label is still
undefined, modelled by none) or an internal split node carrying a feature
index, a threshold, the achieved gini value and two exclusively owned
children. -/
inductive Node where
  | leaf (label : Option Int)
  | split (featureIndex : Int) (threshold : ℚ) (gini : Option ℚ)
      (left right : Node)
deriving DecidableEq

/-- DecisionTree::build_tree (DecisionTree.h lines 79-117), with an
explicit structural fuel so that the definition is executable; build_tree
below instantiates the fuel with the range size, which the termination
theorem shows is always sufficient.  An empty range leaves the node an
untouched default leaf.  A pure range becomes a leaf with the majority
(common) label.  Otherwise the best split is searched; if best_feature is
still -1 the source reads an uninitialized threshold and partitions at
feature index -1, modelled as none, and otherwise the range is partitioned
and both halves are built recursively on the mutated feature matrix. -/
def build_tree_fuel : ℕ → Features → List Int → ℕ → ℕ → List Int →
    Option (Node × Features)
  | 0, f, _, start, fin, _ =>
    if fin ≤ start then some (Node.leaf none, f) else none
  | fuel + 1, f, labels, start, fin, sf =>
    if fin ≤ start then some (Node.leaf none, f)
    else if should_be_leaf labels start fin then
      some (Node.leaf (some (determine_label labels start fin)), f)
    else
      match bestSplitSearch f labels start fin sf with
      | (bf, some bt, bg) =>
        match partition_data f start fin bf bt with
        | none => none
        | some (f2, mid) =>
          (build_tree_fuel fuel f2 labels start mid sf).bind fun p =>
            (build_tree_fuel fuel p.2 labels mid fin sf).map fun q =>
              (Node.split bf bt bg p.1 q.1, q.2)
      | (_, none, _) => none

/-- DecisionTree::build_tree on the range [start, fin). -/
def build_tree (f : Features) (labels : List Int) (start fin : ℕ)
    (sf : List Int) : Option (Node × Features) :=
  build_tree_fuel (fin - start) f labels start fin sf

/-- static_cast to int of a double value, truncation toward zero. -/
def qTrunc (q : ℚ) : Int := q.num / (q.den : Int)

/-- DecisionTree::train (DecisionTree.h lines 35-57): when no candidate
features are supplied, default to all columns but the last of the first
row; split every row into its leading feature values and its trailing
integer label; build from the full range. -/
def tree_train (data : List (List ℚ)) (sampled : List Int) :
    Option (Node × Features) :=
  let sampled2 :=
    if sampled.isEmpty then
      (List.range ((data.getD 0 []).length - 1)).map Int.ofNat
    else sampled
  let features := data.map (fun row => row.dropLast)
  let labels := data.map (fun row => qTrunc (row.getLastD 0))
  build_tree features labels 0 data.length sampled2

/-- DecisionTree::predict (DecisionTree.h lines 59-74): descend from the
root comparing the query value at the recorded feature index with the
threshold; value below threshold goes left, otherwise right.  Reading an
undefined leaf label or an out-of-range feature index is undefined
behaviour in the source, modelled by none. -/
def tree_predict (q : List ℚ) : Node → Option Int
  | Node.leaf lab => lab
  | Node.split fi t _ l r =>
    if 0 ≤ fi then
      (q[fi.toNat]?).bind fun v => if v < t then tree_predict q l else tree_predict q r
    else none

/-- The per-tree prediction loop shared by both RandomForest::predict
versions: collect each prediction in tree order. -/
def forest_predictions (q : List ℚ) : List Node → Option (List Int)
  | [] => some []
  | tr :: trs =>
    (tree_predict q tr).bind fun p => (forest_predictions q trs).map (p :: ·)

/-- RandomForest::predict of the map-based version (src/unnamed/part_000
lines 59-75): count votes in a std::map and take the first key, in
ascending order, whose count strictly exceeds the running maximum. -/
def forest_predict_map (trees : List Node) (q : List ℚ) : Option Int :=
  (forest_predictions q trees).map map_majority

/-- votes[j]++ on the vote vector; none when j is out of range, which in
the source is an out-of-bounds vector write. -/
def bump_at : List ℕ → ℕ → Option (List ℕ)
  | [], _ => none
  | x :: xs, 0 => some ((x + 1) :: xs)
  | x :: xs, j + 1 => (bump_at xs j).map (x :: ·)

/-- The tally loop of the vector-based RandomForest::predict
(src/unnamed/part_001 lines 55-62): votes[prediction]++ for every tree
prediction in order; a negative prediction or one not below the vector
length is an out-of-range access, modelled by none. -/
def tally_votes_aux : List ℕ → List Int → Option (List ℕ)
  | w, [] => some w
  | w, p :: ps =>
    if 0 ≤ p then
      match bump_at w p.toNat with
      | some w2 => tally_votes_aux w2 ps
      | none => none
    else none

/-- Tally the predictions into a vote vector of length numTrees that
starts at all zeros. -/
def tally_votes (numTrees : ℕ) (ps : List Int) : Option (List ℕ) :=
  tally_votes_aux (List.replicate numTrees 0) ps

/-- std::max_element on the suffix rest, where the current best value bv
sits at index bi and the next element has index i; only a strictly larger
value replaces the current best, so the first maximum wins. -/
def max_elem_idx_aux : List ℕ → ℕ → ℕ → ℕ → ℕ
  | [], _, bi, _ => bi
  | v :: rest, i, bi, bv =>
    if bv < v then max_elem_idx_aux rest (i + 1) i v
    else max_elem_idx_aux rest (i + 1) bi bv

/-- distance(votes.begin(), max_element(votes.begin(), votes.end())): index
of the first maximal entry, 0 for the empty vector. -/
def max_elem_idx : List ℕ → ℕ
  | [] => 0
  | v :: rest => max_elem_idx_aux rest 1 0 v

/-- The vote aggregation of the vector-based RandomForest::predict: tally
into a vector of length numTrees, then return the index of its first
maximal entry. -/
def predict_vec (numTrees : ℕ) (ps : List Int) : Option Int :=
  (tally_votes numTrees ps).map (fun w => (max_elem_idx w : Int))

/-- RandomForest::predict of the vector-based version (part_001 lines
55-62) for a whole forest. -/
def forest_predict_vec (trees : List Node) (q : List ℚ) : Option Int :=
  (forest_predictions q trees).bind fun ps => predict_vec trees.length ps

/-- The counter loop of RandomForest::evaluate (part_000 lines 83-94 and
part_001 lines 70-81): the number of test rows whose prediction equals the
trailing label truncated to int. -/
def evaluate_correct (predictFn : List ℚ → Int) (test : List (List ℚ)) : ℕ :=
  test.countP (fun row => predictFn row.dropLast == qTrunc (row.getLastD 0))

/-- The two operands of the final division of RandomForest::evaluate,
correct_predictions and test_data.size().  The source divides these as
doubles without any emptiness guard. -/
def evaluate_frac (predictFn : List ℚ → Int) (test : List (List ℚ)) : ℕ × ℕ :=
  (evaluate_correct predictFn test, test.length)

/-- foldSize = n / k of kFoldCrossValidation (part_000 line 111). -/
def foldSize (n k : ℕ) : ℕ := n / k

/-- start = i * foldSize of fold i (part_000 line 115). -/
def foldStart (fs i : ℕ) : ℕ := i * fs

/-- end of fold i: (i+1) * foldSize, except that the last fold extends to
n (part_000 lines 116-117). -/
def foldEnd (n k fs i : ℕ) : ℕ := if i = k - 1 then n else (i + 1) * fs

/-- The shuffled-index positions assigned to the test set of fold i. -/
def foldTestIdx (n k i : ℕ) : List ℕ :=
  (List.range n).filter fun j =>
    decide (foldStart (foldSize n k) i ≤ j) &&
      decide (j < foldEnd n k (foldSize n k) i)

/-- The shuffled-index positions assigned to the training set of fold i. -/
def foldTrainIdx (n k i : ℕ) : List ℕ :=
  (List.range n).filter fun j =>
    !(decide (foldStart (foldSize n k) i ≤ j) &&
      decide (j < foldEnd n k (foldSize n k) i))

/-- The k per-fold scores of RandomForest::kFoldCrossValidation (part_000
lines 102-135): for each fold, rows at shuffled positions inside
[start, end) form the test set and the rest the training set, and the
fold is scored by training a fresh forest and evaluating it, abstracted
here by evalFold because both steps draw from a random device. -/
def kFoldScores (evalFold : List (List ℚ) → List (List ℚ) → ℚ)
    (data : List (List ℚ)) (indices : List ℕ) (k : ℕ) : List ℚ :=
  (List.range k).map fun i =>
    let test := (foldTestIdx data.length k i).map
      (fun j => data.getD (indices.getD j 0) [])
    let train := (foldTrainIdx data.length k i).map
      (fun j => data.getD (indices.getD j 0) [])
    evalFold train test

/-- RandomForest::kFoldCrossValidation: the accumulated score average,
sum of the k fold scores divided by their number. -/
def kFoldCrossValidation (evalFold : List (List ℚ) → List (List ℚ) → ℚ)
    (data : List (List ℚ)) (indices : List ℕ) (k : ℕ) : ℚ :=
  let scores := kFoldScores evalFold data indices k
  scores.sum / (scores.length : ℚ)

theorem getFeatureAt_eq_of (f g : Features) (j j2 : ℕ) (fi : Int)
    (h : f[j]? = g[j2]?) : getFeatureAt f j fi = getFeatureAt g j2 fi := by
  simp [getFeatureAt, h]

theorem getFeatureAt_lt_length (f : Features) (i : ℕ) (fi : Int) (v : ℚ)
    (h : getFeatureAt f i fi = some v) : i < f.length := by
  by_contra hc
  push_neg at hc
  have hn : f[i]? = none := List.getElem?_eq_none hc
  rw [getFeatureAt, hn] at h
  split at h <;> simp_all

theorem getFeatureAt_nonneg (f : Features) (i : ℕ) (fi : Int) (v : ℚ)
    (h : getFeatureAt f i fi = some v) : 0 ≤ fi := by
  rw [getFeatureAt] at h
  split at h
  · assumption
  · simp_all

theorem getFeatureAt_of_row (f : Features) (i : ℕ) (fi : Int) (row : List ℚ)
    (hfi : 0 ≤ fi) (hrow : f[i]? = some row) :
    getFeatureAt f i fi = row[fi.toNat]? := by
  simp [getFeatureAt, hfi, hrow]

theorem listSwap_length (f : Features) (a b : ℕ) :
    (listSwap f a b).length = f.length := by
  simp [listSwap]

theorem listSwap_getElem?_ne (f : Features) (a b j : ℕ) (h1 : j ≠ a) (h2 : j ≠ b) :
    (listSwap f a b)[j]? = f[j]? := by
  unfold listSwap
  rw [List.getElem?_set_ne (Ne.symm h2), List.getElem?_set_ne (Ne.symm h1)]

theorem listSwap_getElem?_left (f : Features) (a b : ℕ) (ha : a < f.length)
    (hb : b < f.length) : (listSwap f a b)[a]? = f[b]? := by
  unfold listSwap
  by_cases hab : a = b
  · subst hab
    rw [List.getElem?_set_eq_of_lt _ (by simpa using ha)]
    simp [List.getD_eq_getElem f [] ha, List.getElem?_eq_getElem ha]
  · rw [List.getElem?_set_ne (fun hh => hab hh.symm),
      List.getElem?_set_eq_of_lt _ ha]
    simp [List.getD_eq_getElem f [] hb, List.getElem?_eq_getElem hb]

theorem listSwap_getElem?_right (f : Features) (a b : ℕ) (ha : a < f.length)
    (hb : b < f.length) : (listSwap f a b)[b]? = f[a]? := by
  unfold listSwap
  rw [List.getElem?_set_eq_of_lt _ (by simpa using hb)]
  simp [List.getD_eq_getElem f [] ha, List.getElem?_eq_getElem ha]

theorem cons_set_perm {α : Type} (l : List α) (m : ℕ) (hm : m < l.length) (x : α) :
    (l[m] :: l.set m x).Perm (x :: l) := by
  induction l generalizing m with
  | nil => simp at hm
  | cons y ys ih =>
    cases m with
    | zero => simpa using List.Perm.swap x y ys
    | succ n =>
      have hn : n < ys.length := by simpa using hm
      have step1 : (ys[n] :: y :: ys.set n x).Perm (y :: ys[n] :: ys.set n x) :=
        List.Perm.swap y (ys[n]) (ys.set n x)
      have step2 : (y :: ys[n] :: ys.set n x).Perm (y :: (x :: ys)) :=
        (ih n hn).cons y
      have step3 : (y :: x :: ys).Perm (x :: y :: ys) := List.Perm.swap x y ys
      simpa using (step1.trans step2).trans step3

theorem set_set_swap_perm {α : Type} (l : List α) (a b : ℕ) (ha : a < l.length)
    (hb : b < l.length) : ((l.set a l[b]).set b l[a]).Perm l := by
  induction l generalizing a b with
  | nil => simp at ha
  | cons x xs ih =>
    cases a with
    | zero =>
      cases b with
      | zero => simp
      | succ m => simpa using cons_set_perm xs m (by simpa using hb) x
    | succ n =>
      cases b with
      | zero => simpa using cons_set_perm xs n (by simpa using ha) x
      | succ m =>
        simpa using (ih n m (by simpa using ha) (by simpa using hb)).cons x

theorem listSwap_perm (f : Features) (a b : ℕ) (ha : a < f.length)
    (hb : b < f.length) : (listSwap f a b).Perm f := by
  have h1 : f.getD b [] = f[b] := List.getD_eq_getElem f [] hb
  have h2 : f.getD a [] = f[a] := List.getD_eq_getElem f [] ha
  unfold listSwap
  rw [h1, h2]
  exact set_set_swap_perm f a b ha hb

theorem partitionAux_invariant (fi : Int) (t : ℚ) (n : ℕ) :
    ∀ (f : Features) (i mid : ℕ) (f2 : Features) (m2 : ℕ),
      partitionAux fi t n f i mid = some (f2, m2) →
      mid ≤ i →
      (∀ j, mid ≤ j → j < i → ∃ v, getFeatureAt f j fi = some v ∧ ¬ v < t) →
      f2.length = f.length ∧ f2.Perm f ∧ mid ≤ m2 ∧ m2 ≤ mid + n ∧
        (∀ j, j < mid ∨ i + n ≤ j → f2[j]? = f[j]?) ∧
        (∀ j, mid ≤ j → j < m2 → ∃ v, getFeatureAt f2 j fi = some v ∧ v < t) ∧
        (∀ j, m2 ≤ j → j < i + n → ∃ v, getFeatureAt f2 j fi = some v ∧ ¬ v < t) := by
  induction n with
  | zero =>
    intro f i mid f2 m2 h hmi hinv
    simp only [partitionAux, Option.some.injEq, Prod.mk.injEq] at h
    obtain ⟨rfl, rfl⟩ := h
    exact ⟨rfl, List.Perm.refl f, le_refl mid, by omega,
      fun j _ => rfl,
      fun j hj1 hj2 => absurd hj2 (by omega),
      fun j hj1 hj2 => hinv j hj1 (by omega)⟩
  | succ n ih =>
    intro f i mid f2 m2 h hmi hinv
    cases hg : getFeatureAt f i fi with
    | none =>
      simp only [partitionAux, hg] at h
      exact Option.noConfusion h
    | some v =>
      simp only [partitionAux, hg] at h
      have hilen : i < f.length := getFeatureAt_lt_length f i fi v hg
      have hmidlen : mid < f.length := lt_of_le_of_lt hmi hilen
      by_cases hv : v < t
      · rw [if_pos hv] at h
        have hfs_mid : (listSwap f mid i)[mid]? = f[i]? :=
          listSwap_getElem?_left f mid i hmidlen hilen
        have hfs_i : (listSwap f mid i)[i]? = f[mid]? :=
          listSwap_getElem?_right f mid i hmidlen hilen
        have hinv2 : ∀ j, mid + 1 ≤ j → j < i + 1 →
            ∃ w, getFeatureAt (listSwap f mid i) j fi = some w ∧ ¬ w < t := by
          intro j hj1 hj2
          rcases Nat.lt_or_ge j i with hji | hji
          · obtain ⟨w, hw, hwt⟩ := hinv j (by omega) hji
            refine ⟨w, ?_, hwt⟩
            rw [getFeatureAt_eq_of (listSwap f mid i) f j j fi
              (listSwap_getElem?_ne f mid i j (by omega) (by omega))]
            exact hw
          · have hj : j = i := by omega
            obtain ⟨w, hw, hwt⟩ := hinv mid (le_refl _) (by omega)
            refine ⟨w, ?_, hwt⟩
            rw [hj, getFeatureAt_eq_of (listSwap f mid i) f i mid fi hfs_i]
            exact hw
        obtain ⟨L, P, M1, M2, FR, LO, HI⟩ :=
          ih (listSwap f mid i) (i + 1) (mid + 1) f2 m2 h (by omega) hinv2
        refine ⟨L.trans (listSwap_length f mid i),
          P.trans (listSwap_perm f mid i hmidlen hilen), by omega, by omega,
          ?_, ?_, ?_⟩
        · intro j hj
          have hfr : f2[j]? = (listSwap f mid i)[j]? := FR j (by omega)
          rw [hfr, listSwap_getElem?_ne f mid i j (by omega) (by omega)]
        · intro j hj1 hj2
          rcases Nat.eq_or_lt_of_le hj1 with hj | hj
          · refine ⟨v, ?_, hv⟩
            have hfr : f2[j]? = (listSwap f mid i)[j]? := FR j (by omega)
            rw [getFeatureAt_eq_of f2 f j i fi ((hfr.trans (by rw [← hj]; exact hfs_mid)))]
            exact hg
          · exact LO j (by omega) hj2
        · intro j hj1 hj2
          exact HI j hj1 (by omega)
      · rw [if_neg hv] at h
        have hinv2 : ∀ j, mid ≤ j → j < i + 1 →
            ∃ w, getFeatureAt f j fi = some w ∧ ¬ w < t := by
          intro j hj1 hj2
          rcases Nat.lt_or_ge j i with hji | hji
          · exact hinv j hj1 hji
          · have hj : j = i := by omega
            subst hj
            exact ⟨v, hg, hv⟩
        obtain ⟨L, P, M1, M2, FR, LO, HI⟩ := ih f (i + 1) mid f2 m2 h (by omega) hinv2
        exact ⟨L, P, M1, by omega, fun j hj => FR j (by omega), LO,
          fun j hj1 hj2 => HI j hj1 (by omega)⟩

theorem partitionAux_full (f : Features) (start fin : ℕ) (fi : Int) (t : ℚ)
    (f2 : Features) (m0 : ℕ)
    (h : partitionAux fi t (fin - start) f start start = some (f2, m0)) :
    f2.length = f.length ∧ f2.Perm f ∧ start ≤ m0 ∧ m0 ≤ start + (fin - start) ∧
      (∀ j, j < start ∨ start + (fin - start) ≤ j → f2[j]? = f[j]?) ∧
      (∀ j, start ≤ j → j < m0 → ∃ v, getFeatureAt f2 j fi = some v ∧ v < t) ∧
      (∀ j, m0 ≤ j → j < start + (fin - start) →
        ∃ v, getFeatureAt f2 j fi = some v ∧ ¬ v < t) :=
  partitionAux_invariant fi t (fin - start) f start start f2 m0 h (le_refl _)
    (fun _ h1 h2 => absurd h2 (by omega))

theorem partition_data_cases (f : Features) (start fin : ℕ) (fi : Int) (t : ℚ)
    (f2 : Features) (mid : ℕ)
    (h : partition_data f start fin fi t = some (f2, mid)) :
    ∃ m0, partitionAux fi t (fin - start) f start start = some (f2, m0) ∧
      mid = if m0 = start ∨ m0 = fin then start + (fin - start) / 2 else m0 := by
  unfold partition_data at h
  cases ha : partitionAux fi t (fin - start) f start start with
  | none => rw [ha] at h; simp at h
  | some p =>
    rw [ha] at h
    simp only [Option.map_some'] at h
    injection h with h3
    have hf : p.1 = f2 := congrArg Prod.fst h3
    have hm : (if p.2 = start ∨ p.2 = fin then start + (fin - start) / 2 else p.2)
        = mid := congrArg Prod.snd h3
    refine ⟨p.2, ?_, hm.symm⟩
    have hp : p = (f2, p.2) := Prod.ext hf rfl
    exact congrArg some hp

theorem partition_mid_bounds (f f2 : Features) (start fin : ℕ) (fi : Int)
    (t : ℚ) (mid : ℕ) (hrange : start + 2 ≤ fin)
    (h : partition_data f start fin fi t = some (f2, mid)) :
    start < mid ∧ mid < fin := by
  obtain ⟨m0, ha, hm⟩ := partition_data_cases f start fin fi t f2 mid h
  obtain ⟨_, _, M1, M2, _, _, _⟩ := partitionAux_full f start fin fi t f2 m0 ha
  by_cases hg : m0 = start ∨ m0 = fin
  · rw [if_pos hg] at hm
    omega
  · rw [if_neg hg] at hm
    push_neg at hg
    omega

theorem build_tree_fuel_zero (f : Features) (labels : List Int) (start fin : ℕ)
    (sf : List Int) :
    build_tree_fuel 0 f labels start fin sf =
      if fin ≤ start then some (Node.leaf none, f) else none := rfl

theorem build_tree_fuel_succ (u : ℕ) (f : Features) (labels : List Int)
    (start fin : ℕ) (sf : List Int) :
    build_tree_fuel (u + 1) f labels start fin sf =
      (if fin ≤ start then some (Node.leaf none, f)
      else if should_be_leaf labels start fin then
        some (Node.leaf (some (determine_label labels start fin)), f)
      else
        match bestSplitSearch f labels start fin sf with
        | (bf, some bt, bg) =>
          match partition_data f start fin bf bt with
          | none => none
          | some (f2, mid) =>
            (build_tree_fuel u f2 labels start mid sf).bind fun p =>
              (build_tree_fuel u p.2 labels mid fin sf).map fun q =>
                (Node.split bf bt bg p.1 q.1, q.2)
        | (_, none, _) => none) := rfl

theorem should_be_leaf_false_range (labels : List Int) (start fin : ℕ)
    (h0 : ¬ fin ≤ start) (h : should_be_leaf labels start fin = false) :
    start + 2 ≤ fin := by
  by_contra hc
  have hz : fin - (start + 1) = 0 := by omega
  rw [should_be_leaf, hz] at h
  simp at h

theorem build_tree_fuel_step :
    ∀ (u : ℕ) (f : Features) (labels : List Int) (start fin : ℕ) (sf : List Int),
      fin - start ≤ u →
      build_tree_fuel (u + 1) f labels start fin sf =
        build_tree_fuel u f labels start fin sf := by
  intro u
  induction u with
  | zero =>
    intro f labels start fin sf hle
    have h0 : fin ≤ start := by omega
    rw [build_tree_fuel_succ, build_tree_fuel_zero, if_pos h0, if_pos h0]
  | succ w ih =>
    intro f labels start fin sf hle
    by_cases h0 : fin ≤ start
    · rw [build_tree_fuel_succ, build_tree_fuel_succ, if_pos h0, if_pos h0]
    · by_cases h1 : should_be_leaf labels start fin
      · rw [build_tree_fuel_succ, build_tree_fuel_succ, if_neg h0, if_neg h0,
          if_pos h1, if_pos h1]
      · have hr : start + 2 ≤ fin :=
          should_be_leaf_false_range labels start fin h0 (by simpa using h1)
        rw [build_tree_fuel_succ, build_tree_fuel_succ, if_neg h0, if_neg h0,
          if_neg h1, if_neg h1]
        rcases hbs : bestSplitSearch f labels start fin sf with ⟨bf, bto, bg⟩
        cases bto with
        | none => rfl
        | some bt =>
          simp only []
          cases hp : partition_data f start fin bf bt with
          | none => rfl
          | some pr =>
            obtain ⟨f2, mid⟩ := pr
            obtain ⟨hm1, hm2⟩ :=
              partition_mid_bounds f f2 start fin bf bt mid hr hp
            have hrw : ∀ g : Features,
                build_tree_fuel (w + 1) g labels mid fin sf =
                  build_tree_fuel w g labels mid fin sf :=
              fun g => ih g labels mid fin sf (by omega)
            simp only [ih f2 labels start mid sf (by omega), hrw]

theorem build_tree_fuel_stable (fuel : ℕ) (f : Features) (labels : List Int)
    (start fin : ℕ) (sf : List Int) (h : fin - start ≤ fuel) :
    build_tree_fuel fuel f labels start fin sf =
      build_tree f labels start fin sf := by
  unfold build_tree
  obtain ⟨m, rfl⟩ : ∃ m, fuel = (fin - start) + m := ⟨fuel - (fin - start), by omega⟩
  clear h
  induction m with
  | zero => rfl
  | succ m ih =>
    have hs : fin - start + (m + 1) = (fin - start + m) + 1 := rfl
    rw [hs, build_tree_fuel_step (fin - start + m) f labels start fin sf (by omega), ih]

/-- Claim C1: whenever build_tree asks partition_data for a split of a range
holding at least two rows (start + 2 <= fin) and the call returns, the split
index lies strictly between start and fin, so both child ranges are strictly
smaller; consequently the recursion terminates: any fuel at least the range
size computes the same result as build_tree, whose fuel is the range size, so
the recursion never exhausts its fuel. -/
theorem claim1_partition_progress (f f2 : Features) (start fin : ℕ) (fi : Int)
    (t : ℚ) (mid : ℕ) (hrange : start + 2 ≤ fin)
    (h : partition_data f start fin fi t = some (f2, mid)) :
    (start < mid ∧ mid < fin) ∧
      ∀ fuel labels sf, fin - start ≤ fuel →
        build_tree_fuel fuel f labels start fin sf =
          build_tree f labels start fin sf :=
  ⟨partition_mid_bounds f f2 start fin fi t mid hrange h,
    fun fuel labels sf hf => build_tree_fuel_stable fuel f labels start fin sf hf⟩

/-- Witness for claim C1 at a concrete partition call. -/
theorem claim1_partition_progress_witness :
    ((0 < 1 ∧ 1 < 2) ∧
      ∀ fuel labels sf, 2 - 0 ≤ fuel →
        build_tree_fuel fuel [[(0 : ℚ)], [2]] labels 0 2 sf =
          build_tree [[(0 : ℚ)], [2]] labels 0 2 sf) :=
  claim1_partition_progress [[(0 : ℚ)], [2]] [[(0 : ℚ)], [2]] 0 2 0 1 1
    (by omega) (by decide)

theorem perm_window (f2 f : Features) (start fin : ℕ)
    (hFR : ∀ j, j < start ∨ fin ≤ j → f2[j]? = f[j]?) (hP : f2.Perm f)
    (hsf : start ≤ fin) :
    ((f2.drop start).take (fin - start)).Perm ((f.drop start).take (fin - start)) := by
  have hpre : f2.take start = f.take start := by
    apply List.ext_getElem?
    intro i
    by_cases hi : i < start
    · rw [List.getElem?_take, List.getElem?_take, if_pos hi, if_pos hi]
      exact hFR i (Or.inl hi)
    · rw [List.getElem?_take, List.getElem?_take, if_neg hi, if_neg hi]
  have hsuf : f2.drop fin = f.drop fin := by
    apply List.ext_getElem?
    intro i
    rw [List.getElem?_drop, List.getElem?_drop]
    exact hFR (fin + i) (Or.inr (by omega))
  have hdec : ∀ g : Features,
      g = g.take start ++ (((g.drop start).take (fin - start)) ++ g.drop fin) := by
    intro g
    conv_lhs => rw [← List.take_append_drop start g]
    congr 1
    conv_lhs => rw [← List.take_append_drop (fin - start) (g.drop start)]
    congr 1
    rw [List.drop_drop]
    congr 1
    omega
  have hP2 := hP
  rw [hdec f2, hdec f, hpre, hsuf] at hP2
  have h3 := (List.perm_append_left_iff (f.take start)).mp hP2
  exact (List.perm_append_right_iff (f.drop fin)).mp h3

theorem getFeatureAt_decompose (f : Features) (i : ℕ) (fi : Int) (v : ℚ)
    (h : getFeatureAt f i fi = some v) :
    0 ≤ fi ∧ ∃ row, f[i]? = some row ∧ row[fi.toNat]? = some v := by
  have hfi := getFeatureAt_nonneg f i fi v h
  rw [getFeatureAt, if_pos hfi] at h
  cases hrow : f[i]? with
  | none => rw [hrow] at h; simp at h
  | some row =>
    rw [hrow] at h
    exact ⟨hfi, row, rfl, by simpa using h⟩

theorem mem_window_of_getElem (g : Features) (start fin j : ℕ) (row : List ℚ)
    (h1 : start ≤ j) (h2 : j < fin) (hg : g[j]? = some row) :
    row ∈ (g.drop start).take (fin - start) := by
  have hk : ((g.drop start).take (fin - start))[j - start]? = some row := by
    rw [List.getElem?_take, if_pos (by omega), List.getElem?_drop,
      show start + (j - start) = j by omega]
    exact hg
  obtain ⟨hlt, heq⟩ := List.getElem?_eq_some.mp hk
  exact heq ▸ List.getElem_mem hlt

theorem getElem_of_mem_window (g : Features) (start fin : ℕ) (row : List ℚ)
    (hmem : row ∈ (g.drop start).take (fin - start)) :
    ∃ j, start ≤ j ∧ j < fin ∧ g[j]? = some row := by
  obtain ⟨k, hk, hrow⟩ := List.getElem_of_mem hmem
  have hkl : k < fin - start := by
    have := List.length_take (fin - start) (g.drop start)
    omega
  have hw : ((g.drop start).take (fin - start))[k]? = some row := by
    rw [List.getElem?_eq_getElem hk]
    exact congrArg some hrow
  rw [List.getElem?_take, if_pos hkl, List.getElem?_drop] at hw
  exact ⟨start + k, by omega, by omega, hw⟩

/-- Claim C2 counterexample: partitioning the two rows [1], [1] of a
one-column matrix at threshold 0 finds no row below the threshold, so the
swap loop ends with mid = start and the degenerate guard of partition_data
forces mid = 1; the claim then demands that row 0, lying in [start, mid),
satisfy value < threshold, yet its value 1 is not below the threshold 0.
Hence rows below the threshold do not always occupy the prefix [start, mid)
of the returned split. -/
theorem claim2_counterexample :
    partition_data [[(1 : ℚ)], [1]] 0 2 0 0 = some ([[(1 : ℚ)], [1]], 1) ∧
      getFeatureAt [[(1 : ℚ)], [1]] 0 0 = some 1 ∧ ¬ ((1 : ℚ) < 0) :=
  ⟨by decide, by decide, by decide⟩

/-- Claim C2 as amended: provided the range [start, fin) holds at least one
row below the threshold and at least one row not below it (so that the
degenerate midpoint guard of partition_data does not fire), the reordered
matrix has exactly the rows with value below the threshold in [start, mid)
and the rows with value not below it in [mid, fin). -/
theorem claim2_partition_separates (f f2 : Features) (start fin : ℕ) (fi : Int)
    (t : ℚ) (mid : ℕ)
    (h : partition_data f start fin fi t = some (f2, mid))
    (hlo : ∃ j, start ≤ j ∧ j < fin ∧ ∃ v, getFeatureAt f j fi = some v ∧ v < t)
    (hhi : ∃ j, start ≤ j ∧ j < fin ∧ ∃ v, getFeatureAt f j fi = some v ∧ ¬ v < t) :
    (∀ j, start ≤ j → j < mid → ∃ v, getFeatureAt f2 j fi = some v ∧ v < t) ∧
      (∀ j, mid ≤ j → j < fin → ∃ v, getFeatureAt f2 j fi = some v ∧ ¬ v < t) := by
  obtain ⟨jl, hjl1, hjl2, vl, hvl, hvlt⟩ := hlo
  obtain ⟨jh, hjh1, hjh2, vh, hvh, hvht⟩ := hhi
  have hsf : start < fin := lt_of_le_of_lt hjl1 hjl2
  obtain ⟨m0, ha, hm⟩ := partition_data_cases f start fin fi t f2 mid h
  obtain ⟨L, P, M1, M2, FR, LO, HI⟩ := partitionAux_full f start fin fi t f2 m0 ha
  have hfin_eq : start + (fin - start) = fin := by omega
  rw [hfin_eq] at M2 FR HI
  have hwperm := perm_window f2 f start fin FR P (le_of_lt hsf)
  obtain ⟨hfil, rowl, hrowl, hvall⟩ := getFeatureAt_decompose f jl fi vl hvl
  obtain ⟨hfih, rowh, hrowh, hvalh⟩ := getFeatureAt_decompose f jh fi vh hvh
  have hm0s : m0 ≠ start := by
    intro he
    have hmeml : rowl ∈ (f.drop start).take (fin - start) :=
      mem_window_of_getElem f start fin jl rowl hjl1 hjl2 hrowl
    have hmeml2 : rowl ∈ (f2.drop start).take (fin - start) :=
      hwperm.mem_iff.mpr hmeml
    obtain ⟨j2, hj2a, hj2b, hj2g⟩ := getElem_of_mem_window f2 start fin rowl hmeml2
    obtain ⟨v2, hv2, hv2t⟩ := HI j2 (by omega) hj2b
    rw [getFeatureAt_of_row f2 j2 fi rowl hfil hj2g, hvall] at hv2
    have hh : vl = v2 := by injection hv2
    exact hv2t (hh ▸ hvlt)
  have hm0f : m0 ≠ fin := by
    intro he
    have hmemh : rowh ∈ (f.drop start).take (fin - start) :=
      mem_window_of_getElem f start fin jh rowh hjh1 hjh2 hrowh
    have hmemh2 : rowh ∈ (f2.drop start).take (fin - start) :=
      hwperm.mem_iff.mpr hmemh
    obtain ⟨j2, hj2a, hj2b, hj2g⟩ := getElem_of_mem_window f2 start fin rowh hmemh2
    obtain ⟨v2, hv2, hv2t⟩ := LO j2 hj2a (by omega)
    rw [getFeatureAt_of_row f2 j2 fi rowh hfih hj2g, hvalh] at hv2
    have hh : vh = v2 := by injection hv2
    exact hvht (hh.symm ▸ hv2t)
  rw [if_neg (show ¬ (m0 = start ∨ m0 = fin) by push_neg; exact ⟨hm0s, hm0f⟩)] at hm
  exact ⟨fun j hj1 hj2 => LO j hj1 (by omega), fun j hj1 hj2 => HI j (by omega) hj2⟩

/-- Witness for the amended claim C2 at a concrete partition call:
partitioning [[2], [0]] at threshold 1 gives mid = 1 and the reordered
matrix [[0], [2]], whose row 0 is below the threshold. -/
theorem claim2_partition_separates_witness :
    ∃ v, getFeatureAt [[(0 : ℚ)], [2]] 0 0 = some v ∧ v < 1 :=
  (claim2_partition_separates [[(2 : ℚ)], [0]] [[(0 : ℚ)], [2]] 0 2 0 1 1
    (by decide) ⟨1, by decide, by decide, 0, by decide, by decide⟩
    ⟨0, by decide, by decide, 2, by decide, by decide⟩).1 0 (by omega) (by omega)

/-- Claim C3: partition_data receives only the feature matrix (the label
vector is not an argument of the source function, so labels are never
reordered by partitioning); the rows outside [start, fin) are returned
unchanged, and the returned matrix is a permutation of the input, so after
a partition step the feature rows are exactly a permutation of the
original ones while the labels are untouched. -/
theorem claim3_partition_frame (f f2 : Features) (start fin : ℕ) (fi : Int)
    (t : ℚ) (mid : ℕ)
    (h : partition_data f start fin fi t = some (f2, mid)) :
    (∀ j, j < start ∨ fin ≤ j → f2[j]? = f[j]?) ∧ f2.Perm f := by
  obtain ⟨m0, ha, _⟩ := partition_data_cases f start fin fi t f2 mid h
  obtain ⟨_, P, _, _, FR, _, _⟩ := partitionAux_full f start fin fi t f2 m0 ha
  exact ⟨fun j hj => FR j (by omega), P⟩

/-- Witness for claim C3 at a concrete partition call. -/
theorem claim3_partition_frame_witness :
    (∀ j, j < 0 ∨ 2 ≤ j →
      ([[(0 : ℚ)], [2]] : Features)[j]? = ([[(2 : ℚ)], [0]] : Features)[j]?) ∧
      ([[(0 : ℚ)], [2]] : Features).Perm [[(2 : ℚ)], [0]] :=
  claim3_partition_frame [[(2 : ℚ)], [0]] [[(0 : ℚ)], [2]] 0 2 0 1 1 (by decide)

theorem mem_insert_key (x a : Int) (l : List Int) :
    a ∈ insert_key x l ↔ a = x ∨ a ∈ l := by
  induction l with
  | nil => simp [insert_key]
  | cons y ys ih =>
    by_cases h1 : x < y
    · simp [insert_key, h1]
    · by_cases h2 : x = y
      · subst h2
        simp [insert_key, h1]
      · simp [insert_key, h1, h2, ih]
        tauto

theorem pairwise_insert_key (x : Int) (l : List Int)
    (h : l.Pairwise (· < ·)) : (insert_key x l).Pairwise (· < ·) := by
  induction l with
  | nil => simp [insert_key]
  | cons y ys ih =>
    rw [List.pairwise_cons] at h
    obtain ⟨hy, hys⟩ := h
    by_cases h1 : x < y
    · rw [show insert_key x (y :: ys) = x :: y :: ys from by simp [insert_key, h1]]
      rw [List.pairwise_cons]
      constructor
      · intro b hb
        rcases List.mem_cons.mp hb with rfl | hb2
        · exact h1
        · exact lt_trans h1 (hy b hb2)
      · rw [List.pairwise_cons]
        exact ⟨hy, hys⟩
    · by_cases h2 : x = y
      · rw [show insert_key x (y :: ys) = y :: ys from by simp [insert_key, h1, h2]]
        rw [List.pairwise_cons]
        exact ⟨hy, hys⟩
      · rw [show insert_key x (y :: ys) = y :: insert_key x ys from by
          simp [insert_key, h1, h2]]
        rw [List.pairwise_cons]
        refine ⟨?_, ih hys⟩
        intro b hb
        rcases (mem_insert_key x b ys).mp hb with rfl | hb2
        · omega
        · exact hy b hb2

theorem mem_sorted_keys (ps : List Int) (a : Int) :
    a ∈ sorted_keys ps ↔ a ∈ ps := by
  induction ps with
  | nil => simp [sorted_keys]
  | cons p ps ih =>
    show a ∈ insert_key p (ps.foldr insert_key []) ↔ _
    rw [mem_insert_key]
    rw [show ps.foldr insert_key [] = sorted_keys ps from rfl, ih]
    simp

theorem pairwise_sorted_keys (ps : List Int) :
    (sorted_keys ps).Pairwise (· < ·) := by
  induction ps with
  | nil => simp [sorted_keys]
  | cons p ps ih => exact pairwise_insert_key p (sorted_keys ps) ih

theorem best_vote_spec (c : Int → ℕ) :
    ∀ (ks : List Int) (a : Int) (m : ℕ), ks.Pairwise (· < ·) →
      m ≤ (best_vote c ks (a, m)).2 ∧
      (∀ k ∈ ks, c k ≤ (best_vote c ks (a, m)).2) ∧
      ((best_vote c ks (a, m) = (a, m) ∧ ∀ k ∈ ks, c k ≤ m) ∨
        ((best_vote c ks (a, m)).1 ∈ ks ∧
          c (best_vote c ks (a, m)).1 = (best_vote c ks (a, m)).2 ∧
          m < (best_vote c ks (a, m)).2 ∧
          ∀ k ∈ ks, c k = (best_vote c ks (a, m)).2 →
            (best_vote c ks (a, m)).1 ≤ k)) := by
  intro ks
  induction ks with
  | nil =>
    intro a m _
    exact ⟨le_refl m, by simp, Or.inl ⟨rfl, by simp⟩⟩
  | cons k ks ih =>
    intro a m hp
    rw [List.pairwise_cons] at hp
    obtain ⟨hk, hks⟩ := hp
    by_cases hcm : m < c k
    · have hred : best_vote c (k :: ks) (a, m) = best_vote c ks (k, c k) := by
        simp [best_vote, hcm]
      obtain ⟨H1, H2, H3⟩ := ih k (c k) hks
      rw [hred]
      refine ⟨by omega, ?_, ?_⟩
      · intro k2 hk2
        rcases List.mem_cons.mp hk2 with rfl | hk2b
        · exact H1
        · exact H2 k2 hk2b
      · rcases H3 with ⟨heq, _⟩ | ⟨hm1, hm2, hm3, hm4⟩
        · right
          rw [heq]
          refine ⟨List.mem_cons_self k ks, rfl, hcm, ?_⟩
          intro k2 hk2 _
          rcases List.mem_cons.mp hk2 with rfl | hk2b
          · exact le_refl k2
          · exact le_of_lt (hk k2 hk2b)
        · right
          refine ⟨List.mem_cons_of_mem k hm1, hm2, by omega, ?_⟩
          intro k2 hk2 hck2
          rcases List.mem_cons.mp hk2 with rfl | hk2b
          · omega
          · exact hm4 k2 hk2b hck2
    · have hred : best_vote c (k :: ks) (a, m) = best_vote c ks (a, m) := by
        simp [best_vote, hcm]
      obtain ⟨H1, H2, H3⟩ := ih a m hks
      rw [hred]
      refine ⟨H1, ?_, ?_⟩
      · intro k2 hk2
        rcases List.mem_cons.mp hk2 with rfl | hk2b
        · omega
        · exact H2 k2 hk2b
      · rcases H3 with ⟨heq, hall⟩ | ⟨hm1, hm2, hm3, hm4⟩
        · left
          refine ⟨heq, ?_⟩
          intro k2 hk2
          rcases List.mem_cons.mp hk2 with rfl | hk2b
          · omega
          · exact hall k2 hk2b
        · right
          refine ⟨List.mem_cons_of_mem k hm1, hm2, hm3, ?_⟩
          intro k2 hk2 hck2
          rcases List.mem_cons.mp hk2 with rfl | hk2b
          · omega
          · exact hm4 k2 hk2b hck2

theorem map_majority_spec (ps : List Int) (h : ps ≠ []) :
    map_majority ps ∈ ps ∧
      (∀ l ∈ ps, ps.count l ≤ ps.count (map_majority ps)) ∧
      (∀ l ∈ ps, ps.count l = ps.count (map_majority ps) → map_majority ps ≤ l) := by
  obtain ⟨H1, H2, H3⟩ :=
    best_vote_spec (fun l => ps.count l) (sorted_keys ps) (-1) 0
      (pairwise_sorted_keys ps)
  rcases H3 with ⟨_, hall⟩ | ⟨hm1, hm2, _, hm4⟩
  · exfalso
    obtain ⟨x, hx⟩ := List.exists_mem_of_ne_nil ps h
    have hxk : x ∈ sorted_keys ps := (mem_sorted_keys ps x).mpr hx
    have hle := hall x hxk
    have hpos : 0 < ps.count x := List.count_pos_iff.mpr hx
    omega
  · have hr1 : map_majority ps ∈ ps := (mem_sorted_keys ps _).mp hm1
    refine ⟨hr1, ?_, ?_⟩
    · intro l hl
      have hle := H2 l ((mem_sorted_keys ps l).mpr hl)
      have hcr : ps.count (map_majority ps) =
          (best_vote (fun l => ps.count l) (sorted_keys ps) (-1, 0)).2 := hm2
      omega
    · intro l hl hcl
      refine hm4 l ((mem_sorted_keys ps l).mpr hl) ?_
      rw [← hm2]
      exact hcl

theorem smallest_max_unique (ps : List Int) (r1 r2 : Int)
    (hm1 : r1 ∈ ps) (hc1 : ∀ l ∈ ps, ps.count l ≤ ps.count r1)
    (hs1 : ∀ l ∈ ps, ps.count l = ps.count r1 → r1 ≤ l)
    (hm2 : r2 ∈ ps) (hc2 : ∀ l ∈ ps, ps.count l ≤ ps.count r2)
    (hs2 : ∀ l ∈ ps, ps.count l = ps.count r2 → r2 ≤ l) : r1 = r2 := by
  have e1 : ps.count r1 ≤ ps.count r2 := hc2 r1 hm1
  have e2 : ps.count r2 ≤ ps.count r1 := hc1 r2 hm2
  have l1 : r1 ≤ r2 := hs1 r2 hm2 (by omega)
  have l2 : r2 ≤ r1 := hs2 r1 hm1 (by omega)
  omega

theorem map_majority_const (xs : List Int) (cv : Int) (hne : xs ≠ [])
    (hall : ∀ x ∈ xs, x = cv) : map_majority xs = cv := by
  have h1 : sorted_keys xs = [cv] := by
    cases hsk : sorted_keys xs with
    | nil =>
      exfalso
      obtain ⟨x, hx⟩ := List.exists_mem_of_ne_nil xs hne
      have := (mem_sorted_keys xs x).mpr hx
      rw [hsk] at this
      simp at this
    | cons y ys =>
      have hy : y = cv :=
        hall y ((mem_sorted_keys xs y).mp (hsk ▸ List.mem_cons_self y ys))
      cases ys with
      | nil => rw [hy]
      | cons z zs =>
        exfalso
        have hz : z = cv :=
          hall z ((mem_sorted_keys xs z).mp (hsk ▸ by simp))
        have hp := pairwise_sorted_keys xs
        rw [hsk, List.pairwise_cons] at hp
        have := hp.1 z (by simp)
        omega
  have hc : 0 < xs.count cv := by
    refine List.count_pos_iff.mpr ?_
    obtain ⟨x, hx⟩ := List.exists_mem_of_ne_nil xs hne
    exact (hall x hx) ▸ hx
  rw [map_majority, h1]
  simp [best_vote, hc]

/-- Claim C4: the map-based RandomForest::predict returns the label with the
strictly greatest number of per-tree votes, breaking ties in favour of the
smallest label value: the returned label occurs among the predictions, its
count is maximal, any label tying that count is at least it, and the two
concrete vote lists of the spec give 1 and 0 respectively. -/
theorem claim4_forest_predict_majority (trees : List Node) (q : List ℚ)
    (ps : List Int) (hps : forest_predictions q trees = some ps) (h : ps ≠ []) :
    forest_predict_map trees q = some (map_majority ps) ∧
      map_majority ps ∈ ps ∧
      (∀ l ∈ ps, ps.count l ≤ ps.count (map_majority ps)) ∧
      (∀ l ∈ ps, ps.count l = ps.count (map_majority ps) → map_majority ps ≤ l) ∧
      map_majority [1, 1, 0] = 1 ∧ map_majority [1, 0, 1, 0] = 0 := by
  obtain ⟨a, b, c⟩ := map_majority_spec ps h
  refine ⟨?_, a, b, c, by decide, by decide⟩
  rw [forest_predict_map, hps]
  rfl

/-- Witness for claim C4: a three-leaf forest voting [1, 1, 0] predicts
label 1. -/
theorem claim4_forest_predict_majority_witness :
    forest_predict_map [Node.leaf (some 1), Node.leaf (some 1),
      Node.leaf (some 0)] [] = some (map_majority [1, 1, 0]) :=
  (claim4_forest_predict_majority
    [Node.leaf (some 1), Node.leaf (some 1), Node.leaf (some 0)] [] [1, 1, 0]
    (by decide) (by decide)).1

/-- Claim C7: on a non-empty range whose labels are all equal, build_tree
yields a leaf carrying that common label and leaves the feature matrix
untouched (no partition, no recursion); since the purity test also accepts
singleton ranges, and there is no depth or minimum-size rule in the source,
recursion stops exactly at pure (including singleton) ranges. -/
theorem claim7_pure_range_leaf (f : Features) (labels : List Int)
    (start fin : ℕ) (sf : List Int) (cv : Int) (h1 : start < fin)
    (hall : ∀ i, start ≤ i → i < fin → labels.getD i 0 = cv) :
    build_tree f labels start fin sf = some (Node.leaf (some cv), f) := by
  have hleaf : should_be_leaf labels start fin = true := by
    rw [should_be_leaf, List.all_eq_true]
    intro i hi
    rw [List.mem_range'_1] at hi
    have e1 := hall i (by omega) (by omega)
    have e2 := hall start (le_refl _) h1
    simp only [e1, e2, beq_self_eq_true]
  have hdl : determine_label labels start fin = cv := by
    rw [determine_label]
    apply map_majority_const
    · intro hemp
      have hlen := congrArg List.length hemp
      simp [sliceIdx] at hlen
      omega
    · intro x hx
      rw [sliceIdx] at hx
      obtain ⟨i, hi, rfl⟩ := List.mem_map.mp hx
      rw [List.mem_range'_1] at hi
      exact hall i (by omega) (by omega)
  rw [build_tree]
  obtain ⟨e, he⟩ : ∃ e, fin - start = e + 1 := ⟨fin - start - 1, by omega⟩
  rw [he, build_tree_fuel_succ, if_neg (by omega), if_pos hleaf, hdl]

/-- Witness for claim C7 on a two-row pure range. -/
theorem claim7_pure_range_leaf_witness :
    build_tree [[(1 : ℚ)], [(2 : ℚ)]] [7, 7] 0 2 [] =
      some (Node.leaf (some 7), [[(1 : ℚ)], [(2 : ℚ)]]) :=
  claim7_pure_range_leaf [[(1 : ℚ)], [(2 : ℚ)]] [7, 7] 0 2 [] 7 (by omega)
    (by intro i hi1 hi2; interval_cases i <;> rfl)

/-- Claim C8 is wrong about the code: when the candidate feature set is
empty, best_feature does remain -1, but build_tree has no fallback to a
majority leaf: it stores the unset feature and the uninitialized threshold
on the node and calls partition_data with feature index -1, an
out-of-bounds feature access.  On the single-column dataset [[0], [1]] the
default candidate set built by train is empty (no columns besides the
label), the two labels differ, and training reaches exactly that undefined
access, modelled by none. -/
theorem claim8_empty_feature_set_bug :
    bestSplitSearch [[], []] [0, 1] 0 2 [] = (-1, none, none) ∧
      tree_train [[(0 : ℚ)], [1]] [] = none := by
  exact ⟨rfl, by decide⟩

theorem getD_mem_of_lt (l : List ℕ) (j : ℕ) (hj : j < l.length) :
    l.getD j 0 ∈ l := by
  rw [List.getD_eq_getElem l 0 hj]
  exact List.getElem_mem hj

theorem max_elem_idx_aux_spec :
    ∀ (rest : List ℕ) (i bi bv : ℕ),
      (max_elem_idx_aux rest i bi bv = bi ∧ ∀ x ∈ rest, x ≤ bv) ∨
      (∃ k, k < rest.length ∧ max_elem_idx_aux rest i bi bv = i + k ∧
        bv < rest.getD k 0 ∧
        (∀ j, j < rest.length → rest.getD j 0 ≤ rest.getD k 0) ∧
        (∀ j, j < k → rest.getD j 0 < rest.getD k 0)) := by
  intro rest
  induction rest with
  | nil =>
    intro i bi bv
    left
    exact ⟨rfl, by simp⟩
  | cons v rest ih =>
    intro i bi bv
    by_cases hv : bv < v
    · have hred : max_elem_idx_aux (v :: rest) i bi bv =
          max_elem_idx_aux rest (i + 1) i v := by
        simp [max_elem_idx_aux, hv]
      rcases ih (i + 1) i v with ⟨he, hall⟩ | ⟨k, hk, he, hbk, hmax, hstrict⟩
      · right
        refine ⟨0, by simp, by rw [hred, he]; omega, by simpa using hv, ?_, ?_⟩
        · intro j hj
          cases j with
          | zero => simp
          | succ j2 =>
            simp only [List.getD_cons_succ, List.getD_cons_zero]
            exact hall (rest.getD j2 0) (getD_mem_of_lt rest j2 (by simpa using hj))
        · intro j hj
          omega
      · right
        refine ⟨k + 1, by simpa using hk, by rw [hred, he]; omega, ?_, ?_, ?_⟩
        · simp only [List.getD_cons_succ]
          omega
        · intro j hj
          cases j with
          | zero =>
            simp only [List.getD_cons_succ, List.getD_cons_zero]
            omega
          | succ j2 =>
            simp only [List.getD_cons_succ]
            exact hmax j2 (by simpa using hj)
        · intro j hj
          cases j with
          | zero =>
            simp only [List.getD_cons_succ, List.getD_cons_zero]
            omega
          | succ j2 =>
            simp only [List.getD_cons_succ]
            exact hstrict j2 (by omega)
    · have hred : max_elem_idx_aux (v :: rest) i bi bv =
          max_elem_idx_aux rest (i + 1) bi bv := by
        simp [max_elem_idx_aux, hv]
      rcases ih (i + 1) bi bv with ⟨he, hall⟩ | ⟨k, hk, he, hbk, hmax, hstrict⟩
      · left
        refine ⟨by rw [hred, he], ?_⟩
        intro x hx
        rcases List.mem_cons.mp hx with rfl | hx2
        · omega
        · exact hall x hx2
      · right
        refine ⟨k + 1, by simpa using hk, by rw [hred, he]; omega, ?_, ?_, ?_⟩
        · simp only [List.getD_cons_succ]
          exact hbk
        · intro j hj
          cases j with
          | zero =>
            simp only [List.getD_cons_succ, List.getD_cons_zero]
            omega
          | succ j2 =>
            simp only [List.getD_cons_succ]
            exact hmax j2 (by simpa using hj)
        · intro j hj
          cases j with
          | zero =>
            simp only [List.getD_cons_succ, List.getD_cons_zero]
            omega
          | succ j2 =>
            simp only [List.getD_cons_succ]
            exact hstrict j2 (by omega)

theorem max_elem_idx_spec (w : List ℕ) (hne : w ≠ []) :
    max_elem_idx w < w.length ∧
      (∀ j, j < w.length → w.getD j 0 ≤ w.getD (max_elem_idx w) 0) ∧
      (∀ j, j < max_elem_idx w → w.getD j 0 < w.getD (max_elem_idx w) 0) := by
  cases w with
  | nil => simp at hne
  | cons v rest =>
    have hdef : max_elem_idx (v :: rest) = max_elem_idx_aux rest 1 0 v := rfl
    rcases max_elem_idx_aux_spec rest 1 0 v with ⟨he, hall⟩ | ⟨k, hk, he, hbk, hmax, hstrict⟩
    · have hidx : max_elem_idx (v :: rest) = 0 := by rw [hdef, he]
      rw [hidx]
      refine ⟨by simp, ?_, by intro j hj; omega⟩
      intro j hj
      cases j with
      | zero => simp
      | succ j2 =>
        simp only [List.getD_cons_succ, List.getD_cons_zero]
        exact hall (rest.getD j2 0) (getD_mem_of_lt rest j2 (by simpa using hj))
    · have hidx : max_elem_idx (v :: rest) = k + 1 := by rw [hdef, he]; omega
      rw [hidx]
      refine ⟨by simp; omega, ?_, ?_⟩
      · intro j hj
        cases j with
        | zero =>
          simp only [List.getD_cons_succ, List.getD_cons_zero]
          omega
        | succ j2 =>
          simp only [List.getD_cons_succ]
          exact hmax j2 (by simpa using hj)
      · intro j hj
        cases j with
        | zero =>
          simp only [List.getD_cons_succ, List.getD_cons_zero]
          omega
        | succ j2 =>
          simp only [List.getD_cons_succ]
          exact hstrict j2 (by omega)

theorem bump_at_spec :
    ∀ (w : List ℕ) (j : ℕ), j < w.length →
      ∃ w2, bump_at w j = some w2 ∧ w2.length = w.length ∧
        ∀ i, i < w.length →
          w2.getD i 0 = if i = j then w.getD i 0 + 1 else w.getD i 0 := by
  intro w
  induction w with
  | nil =>
    intro j hj
    simp at hj
  | cons x xs ih =>
    intro j hj
    cases j with
    | zero =>
      refine ⟨(x + 1) :: xs, rfl, by simp, ?_⟩
      intro i hi
      cases i with
      | zero => simp
      | succ i2 => simp
    | succ j2 =>
      have hj2 : j2 < xs.length := by simpa using hj
      obtain ⟨w2, hw2, hlen, hval⟩ := ih j2 hj2
      refine ⟨x :: w2, by simp [bump_at, hw2], by simp [hlen], ?_⟩
      intro i hi
      cases i with
      | zero => simp
      | succ i2 =>
        have hi2 : i2 < xs.length := by simpa using hi
        simp only [List.getD_cons_succ]
        rw [hval i2 hi2]
        by_cases he : i2 = j2
        · simp [he]
        · simp [he]

theorem tally_votes_aux_spec :
    ∀ (ps : List Int) (w : List ℕ),
      (∀ p ∈ ps, 0 ≤ p ∧ p.toNat < w.length) →
      ∃ w2, tally_votes_aux w ps = some w2 ∧ w2.length = w.length ∧
        ∀ j, j < w.length → w2.getD j 0 = w.getD j 0 + ps.count ((j : ℕ) : Int) := by
  intro ps
  induction ps with
  | nil =>
    intro w _
    exact ⟨w, rfl, rfl, by simp⟩
  | cons p ps ih =>
    intro w hall
    obtain ⟨hp0, hplen⟩ := hall p (List.mem_cons_self p ps)
    obtain ⟨w1, hw1, hlen1, hval1⟩ := bump_at_spec w p.toNat hplen
    have hall2 : ∀ q ∈ ps, 0 ≤ q ∧ q.toNat < w1.length := by
      intro q hq
      obtain ⟨a, b⟩ := hall q (List.mem_cons_of_mem p hq)
      exact ⟨a, by omega⟩
    obtain ⟨w2, hw2, hlen2, hval2⟩ := ih w1 hall2
    refine ⟨w2, ?_, by omega, ?_⟩
    · simp only [tally_votes_aux, if_pos hp0, hw1]
      exact hw2
    · intro j hj
      have hj1 : j < w1.length := by omega
      rw [hval2 j hj1, hval1 j hj, List.count_cons]
      simp only [beq_iff_eq]
      by_cases he : j = p.toNat
      · have hpe : p = ((j : ℕ) : Int) := by omega
        rw [if_pos he, if_pos hpe]
        omega
      · have hpe : ¬ (p = ((j : ℕ) : Int)) := by omega
        rw [if_neg he, if_neg hpe]
        omega

theorem tally_votes_spec (n : ℕ) (ps : List Int)
    (hall : ∀ p ∈ ps, 0 ≤ p ∧ p < (n : Int)) :
    ∃ w, tally_votes n ps = some w ∧ w.length = n ∧
      ∀ j, j < n → w.getD j 0 = ps.count ((j : ℕ) : Int) := by
  have hall2 : ∀ p ∈ ps, 0 ≤ p ∧ p.toNat < (List.replicate n (0 : ℕ)).length := by
    intro p hp
    obtain ⟨a, b⟩ := hall p hp
    refine ⟨a, ?_⟩
    simp only [List.length_replicate]
    omega
  obtain ⟨w, hw, hlen, hval⟩ := tally_votes_aux_spec ps (List.replicate n 0) hall2
  refine ⟨w, hw, by simpa using hlen, ?_⟩
  intro j hj
  have hrep : (List.replicate n (0 : ℕ)).getD j 0 = 0 := by
    rw [List.getD_eq_getElem _ 0 (by simpa using hj)]
    simp
  have := hval j (by simpa using hj)
  rw [hrep] at this
  simpa using this

theorem forest_predictions_length (q : List ℚ) :
    ∀ (trees : List Node) (ps : List Int),
      forest_predictions q trees = some ps → ps.length = trees.length := by
  intro trees
  induction trees with
  | nil =>
    intro ps h
    simp only [forest_predictions, Option.some.injEq] at h
    rw [← h]
    rfl
  | cons tr trs ih =>
    intro ps h
    simp only [forest_predictions] at h
    cases hp : tree_predict q tr with
    | none =>
      rw [hp] at h
      simp at h
    | some p =>
      rw [hp] at h
      cases hf : forest_predictions q trs with
      | none =>
        rw [hf] at h
        simp at h
      | some ps2 =>
        rw [hf] at h
        simp only [Option.some_bind, Option.map_some', Option.some.injEq] at h
        rw [← h]
        simp [ih ps2 hf]

/-- Claim C10: the vector-based RandomForest::predict tallies votes with
votes[prediction]++ on a vector of length num_trees, which stays in bounds
exactly under the precondition that every predicted label lies in
[0, num_trees); and a concrete one-tree forest whose tree is a leaf with
label 5 drives the vote-vector access out of range (modelled by none). -/
theorem claim10_vote_vector_bounds :
    (∀ (n : ℕ) (ps : List Int), (∀ p ∈ ps, 0 ≤ p ∧ p < (n : Int)) →
      (tally_votes n ps).isSome = true) ∧
      forest_predict_vec [Node.leaf (some 5)] [] = none := by
  constructor
  · intro n ps hall
    obtain ⟨w, hw, _, _⟩ := tally_votes_spec n ps hall
    rw [hw]
    rfl
  · decide

/-- Witness for claim C10: the in-bounds tally succeeds on a concrete
in-range vote list, and the out-of-range forest fails. -/
theorem claim10_vote_vector_bounds_witness :
    (tally_votes 1 [0]).isSome = true ∧
      forest_predict_vec [Node.leaf (some 5)] [] = none :=
  ⟨claim10_vote_vector_bounds.1 1 [0] (by decide),
    claim10_vote_vector_bounds.2⟩

/-- Claim C9: the map-based and the vector-based RandomForest::predict
agree whenever the per-tree predictions are identical, at least one tree
exists and every predicted label lies in [0, num_trees): both compute the
smallest label with the maximal vote count, and on a whole forest whose
prediction list is ps the two versions return the same label. -/
theorem claim9_predict_versions_agree (ps : List Int) (hne : 1 ≤ ps.length)
    (hall : ∀ p ∈ ps, 0 ≤ p ∧ p < (ps.length : Int)) :
    predict_vec ps.length ps = some (map_majority ps) ∧
      ∀ (trees : List Node) (q : List ℚ),
        forest_predictions q trees = some ps →
        forest_predict_vec trees q = forest_predict_map trees q := by
  obtain ⟨w, hw, hlen, hval⟩ := tally_votes_spec ps.length ps hall
  have hpsne : ps ≠ [] := by
    intro hcon
    rw [hcon] at hne
    simp at hne
  have hwne : w ≠ [] := by
    intro hcon
    rw [hcon] at hlen
    simp at hlen
    omega
  obtain ⟨hr1, hr2, hr3⟩ := max_elem_idx_spec w hwne
  have hrlen : max_elem_idx w < ps.length := by omega
  have hcr : ps.count ((max_elem_idx w : ℕ) : Int) = w.getD (max_elem_idx w) 0 :=
    (hval (max_elem_idx w) hrlen).symm
  have hmemr : ((max_elem_idx w : ℕ) : Int) ∈ ps := by
    refine List.count_pos_iff.mp ?_
    obtain ⟨p0, hp0⟩ := List.exists_mem_of_ne_nil ps hpsne
    obtain ⟨hp0a, hp0b⟩ := hall p0 hp0
    have hcp0 : ps.count ((p0.toNat : ℕ) : Int) = w.getD p0.toNat 0 :=
      (hval p0.toNat (by omega)).symm
    have hcast : ((p0.toNat : ℕ) : Int) = p0 := by omega
    rw [hcast] at hcp0
    have hpos0 : 0 < ps.count p0 := List.count_pos_iff.mpr hp0
    have hle := hr2 p0.toNat (by omega)
    omega
  have hcmax : ∀ l ∈ ps, ps.count l ≤ ps.count ((max_elem_idx w : ℕ) : Int) := by
    intro l hl
    obtain ⟨hla, hlb⟩ := hall l hl
    have hcl : ps.count ((l.toNat : ℕ) : Int) = w.getD l.toNat 0 :=
      (hval l.toNat (by omega)).symm
    have hcast : ((l.toNat : ℕ) : Int) = l := by omega
    rw [hcast] at hcl
    have hle := hr2 l.toNat (by omega)
    omega
  have hsmall : ∀ l ∈ ps, ps.count l = ps.count ((max_elem_idx w : ℕ) : Int) →
      ((max_elem_idx w : ℕ) : Int) ≤ l := by
    intro l hl hceq
    by_contra hlt
    push_neg at hlt
    obtain ⟨hla, hlb⟩ := hall l hl
    have hln : l.toNat < max_elem_idx w := by omega
    have hstrict := hr3 l.toNat hln
    have hcl : ps.count ((l.toNat : ℕ) : Int) = w.getD l.toNat 0 :=
      (hval l.toNat (by omega)).symm
    have hcast : ((l.toNat : ℕ) : Int) = l := by omega
    rw [hcast] at hcl
    omega
  obtain ⟨hm1, hm2, hm3⟩ := map_majority_spec ps hpsne
  have heq : ((max_elem_idx w : ℕ) : Int) = map_majority ps :=
    smallest_max_unique ps _ _ hmemr hcmax hsmall hm1 hm2 hm3
  have main : predict_vec ps.length ps = some (map_majority ps) := by
    rw [predict_vec, hw]
    simp only [Option.map_some']
    exact congrArg some heq
  refine ⟨main, ?_⟩
  intro trees q hfp
  have hlen2 : ps.length = trees.length := forest_predictions_length q trees ps hfp
  rw [forest_predict_vec, forest_predict_map, hfp]
  simp only [Option.some_bind, Option.map_some']
  rw [← hlen2, main]

/-- Witness for claim C9 on the one-prediction list [0]. -/
theorem claim9_predict_versions_agree_witness :
    predict_vec 1 [0] = some (map_majority [0]) :=
  (claim9_predict_versions_agree [0] (by decide) (by decide)).1

/-- Claim C6 is right about the counting (the number of exact matches never
exceeds the number of test rows, so the ratio lies in [0,1] whenever it is
defined) but wrong about the guard: RandomForest::evaluate divides
correct_predictions by test_data.size() as doubles with no emptiness check,
so on an empty test set the operands of the division are (0, 0) and the
source computes 0.0/0.0, IEEE NaN, instead of failing or returning 0. -/
theorem claim6_evaluate_unguarded :
    (∀ predictFn : List ℚ → Int, evaluate_frac predictFn [] = (0, 0)) ∧
      (∀ (predictFn : List ℚ → Int) (test : List (List ℚ)),
        (evaluate_frac predictFn test).1 ≤ (evaluate_frac predictFn test).2) := by
  constructor
  · intro pf
    rfl
  · intro pf test
    exact List.countP_le_length _

/-- Claim C5: for 1 <= k <= n, kFoldCrossValidation splits the n shuffled
index positions into k contiguous folds: every position below n falls into
exactly one fold interval, every fold except the last spans exactly
foldSize = n / k positions, the last fold ends at n, and the returned value
is the sum of the k per-fold scores divided by k, their arithmetic mean. -/
theorem claim5_kfold_partition (evalFold : List (List ℚ) → List (List ℚ) → ℚ)
    (data : List (List ℚ)) (indices : List ℕ) (k : ℕ)
    (h1 : 1 ≤ k) (h2 : k ≤ data.length) :
    (∀ j, j < data.length → ∃! i, i < k ∧
      foldStart (foldSize data.length k) i ≤ j ∧
      j < foldEnd data.length k (foldSize data.length k) i) ∧
    (∀ i, i < k → i ≠ k - 1 →
      foldEnd data.length k (foldSize data.length k) i =
        foldStart (foldSize data.length k) i + foldSize data.length k) ∧
    foldEnd data.length k (foldSize data.length k) (k - 1) = data.length ∧
    kFoldCrossValidation evalFold data indices k =
      (kFoldScores evalFold data indices k).sum / (k : ℚ) := by
  have hfs : 1 ≤ data.length / k := (Nat.one_le_div_iff (by omega)).mpr h2
  refine ⟨?_, ?_, ?_, ?_⟩
  · intro j hj
    by_cases hcase : j / (data.length / k) < k - 1
    · refine ⟨j / (data.length / k), ⟨by omega, Nat.div_mul_le_self j _, ?_⟩, ?_⟩
      · have hexp : (j / (data.length / k) + 1) * (data.length / k) =
            (data.length / k) * (j / (data.length / k)) + data.length / k := by
          ring
        have hdm := Nat.div_add_mod j (data.length / k)
        have hmod := Nat.mod_lt j (show 0 < data.length / k by omega)
        rw [foldEnd, if_neg (by omega)]
        rw [show foldSize data.length k = data.length / k from rfl, hexp]
        omega
      · intro y hy
        obtain ⟨hy1, hy2, hy3⟩ := hy
        have hyle : y ≤ j / (data.length / k) :=
          (Nat.le_div_iff_mul_le (by omega)).mpr hy2
        by_cases hy4 : y = k - 1
        · omega
        · rw [foldEnd, if_neg hy4] at hy3
          have hlt : j / (data.length / k) < y + 1 :=
            (Nat.div_lt_iff_lt_mul (by omega)).mpr hy3
          omega
    · push_neg at hcase
      refine ⟨k - 1, ⟨by omega, ?_, ?_⟩, ?_⟩
      · exact (Nat.le_div_iff_mul_le (show 0 < data.length / k by omega)).mp hcase
      · rw [foldEnd, if_pos rfl]
        omega
      · intro y hy
        obtain ⟨hy1, hy2, hy3⟩ := hy
        by_cases hy4 : y = k - 1
        · exact hy4
        · exfalso
          rw [foldEnd, if_neg hy4] at hy3
          have hlt : j / (data.length / k) < y + 1 :=
            (Nat.div_lt_iff_lt_mul (by omega)).mpr hy3
          omega
  · intro i hi hne2
    rw [foldEnd, if_neg hne2]
    show (i + 1) * (data.length / k) = i * (data.length / k) + data.length / k
    ring
  · rw [foldEnd, if_pos rfl]
  · have hlen : (kFoldScores evalFold data indices k).length = k := by
      rw [kFoldScores]
      simp
    simp only [kFoldCrossValidation]
    rw [hlen]

/-- Witness for claim C5 with n = 10, k = 5: position 3 lies in exactly one
fold interval. -/
theorem claim5_kfold_partition_witness :
    ∃! i, i < 5 ∧ foldStart (foldSize 10 5) i ≤ 3 ∧
      3 < foldEnd 10 5 (foldSize 10 5) i :=
  (claim5_kfold_partition (fun _ _ => 0) (List.replicate 10 [])
    (List.range 10) 5 (by omega) (by norm_num)).1 3 (by norm_num)
